import Mathlib

/-!
Verification of the cdasim market simulator (src/agent.rs, src/market.rs,
src/main.rs).

The Rust code works on IEEE doubles; here every numeric field is embedded in a
linear ordered field (instantiated at ℚ for concrete witnesses and at ℝ for the
bidding model, whose Exponential style uses the real exponential function).
The mutable-reference style of the Rust code (priority queues of `&mut Agent`)
is embedded functionally: each market returns the updated population as a list
(a permutation of its input), together with the optional price that
`Market::simulate` returns.
-/

set_option linter.unusedVariables false

/-- The four shading styles of `src/agent.rs`. -/
inductive Style
  | Standard
  | Exponential
  | Shift
  | Correct
deriving DecidableEq, Repr

/-- One trading agent (`struct Agent` in `src/agent.rs`).  `strat` is the
opaque strategy label, used only for reporting. -/
structure Agent (α : Type) where
  buyer : Bool
  strat : String
  style : Style
  shading : α
  value : α
  bid : α
  utility : α
  traded : Bool
  ce_traded : Bool
deriving DecidableEq, Repr

variable {α : Type} [LinearOrderedField α]

namespace Agent

/-- `Agent::new` (src/agent.rs): all numeric fields start at zero, flags false. -/
def new (buyer : Bool) (strat : String) (style : Style) (shading : α) : Agent α :=
  { buyer := buyer, strat := strat, style := style, shading := shading,
    value := 0, bid := 0, utility := 0, traded := false, ce_traded := false }

instance : Inhabited (Agent α) := ⟨new true "" Style.Standard 0⟩

/-- `Agent::sign`: +1 for a buyer, -1 for a seller. -/
def sign (a : Agent α) : α := if a.buyer then 1 else -1

/-- `Agent::transact`: realize the payoff of a trade at `price`. -/
def transact (a : Agent α) (price : α) : Agent α :=
  { a with utility := (a.value - price) * a.sign, traded := true }

/-- `Agent::reset`: clear the round-scoped outcome fields. -/
def reset (a : Agent α) : Agent α :=
  { a with utility := 0, traded := false }

/-- `Agent::resample`, with the random draw made an explicit argument `v`:
set a fresh value, a truthful bid, and clear the outcome fields. -/
def resample (a : Agent α) (v : α) : Agent α :=
  Agent.reset { a with value := v, bid := v * a.sign }

/-- `Agent::shade` (src/agent.rs): recompute the bid from the private value
according to the configured style and shading strength, and clear the outcome
fields.  Stated over ℝ because the Exponential style uses `exp`. -/
noncomputable def shade (a : Agent ℝ) : Agent ℝ :=
  Agent.reset { a with bid :=
    match a.style, a.buyer with
    | Style.Standard, _ => a.value * (a.sign - a.shading)
    | Style.Correct, true => a.value * (a.sign - a.shading)
    | Style.Correct, false => (a.value - 1) * a.shading - a.value
    | Style.Exponential, _ => a.sign * a.value * Real.exp (-a.sign * a.shading)
    | Style.Shift, _ => a.sign * a.value - a.shading }

end Agent

/-- The ordering the Rust code puts on agents (`impl Ord for Agent`):
by bid, here oriented descending so that sorted lists start with the most
aggressive (highest-bid) agent, matching the `.reverse()`d sorts and the
max-heaps of `src/market.rs`. -/
def byBidDesc (a b : Agent α) : Prop := b.bid ≤ a.bid

instance : DecidableRel (α := Agent α) byBidDesc :=
  fun a b => inferInstanceAs (Decidable (b.bid ≤ a.bid))

instance : IsTotal (Agent α) byBidDesc := ⟨fun a b => le_total b.bid a.bid⟩

instance : IsTrans (Agent α) byBidDesc := ⟨fun a b c h1 h2 => le_trans h2 h1⟩

/-- The number of matched buyer/seller pairs of the call market:
`buys.iter().zip(sells).take_while(|(b, s)| -s.bid <= b.bid).count()`
on the two descending-sorted sides. -/
def matchedCount : List (Agent α) → List (Agent α) → ℕ
  | b :: bs, s :: ss => if -s.bid ≤ b.bid then matchedCount bs ss + 1 else 0
  | _, _ => 0

namespace Call

/-- The buyer side of the call market, sorted by descending bid
(`buys.sort_unstable_by(|a, b| a.cmp(b).reverse())`). -/
def sortedBuys (agents : List (Agent α)) : List (Agent α) :=
  List.insertionSort byBidDesc (agents.filter (fun a => a.buyer))

/-- The seller side of the call market, sorted by descending bid
(equivalently by ascending implied ask). -/
def sortedSells (agents : List (Agent α)) : List (Agent α) :=
  List.insertionSort byBidDesc (agents.filter (fun a => !a.buyer))

/-- `impl Market for Call` (src/market.rs): split the population by role, sort
both sides by descending bid, match the longest prefix of compatible pairs,
and clear every matched agent at the marginal midpoint price.  The updated
population is returned as a list (matched buyers, resting buyers, matched
sellers, resting sellers); the Rust code updates the same agents in place
through mutable references, so this list is the same population up to order. -/
def simulate (agents : List (Agent α)) : Option α × List (Agent α) :=
  let buys := sortedBuys agents
  let sells := sortedSells agents
  let matched := matchedCount buys sells
  if 0 < matched then
    let price := ((buys.getD (matched - 1) default).bid -
      (sells.getD (matched - 1) default).bid) / 2
    (some price,
      (buys.take matched).map (fun b => b.transact price) ++ buys.drop matched ++
        (sells.take matched).map (fun s => s.transact price) ++ sells.drop matched)
  else (none, agents)

end Call

namespace Cda

/-- The processing loop of `impl Market for Cda` (src/market.rs).  `rest` is
the not-yet-processed arrival sequence, `buys`/`sells` are the resting orders
(kept sorted by descending bid, so the head is the top of the max-heap),
`done` collects the agents that have already transacted, and `avg`/`n` are the
incremental average price and the transaction count of the closure `trans`. -/
def loop : List (Agent α) → List (Agent α) → List (Agent α) → List (Agent α) →
    α → ℕ → List (Agent α) × α × ℕ
  | [], buys, sells, done, avg, n => (done ++ buys ++ sells, avg, n)
  | a :: rest, buys, sells, done, avg, n =>
    if a.buyer then
      match sells with
      | s :: stail =>
        if -s.bid ≤ a.bid then
          loop rest buys stail
            (done ++ [a.transact (-s.bid), s.transact (-s.bid)])
            (avg + (-s.bid - avg) / ((n : α) + 1)) (n + 1)
        else loop rest (List.orderedInsert byBidDesc a buys) sells done avg n
      | [] => loop rest (List.orderedInsert byBidDesc a buys) sells done avg n
    else
      match buys with
      | b :: btail =>
        if -a.bid ≤ b.bid then
          loop rest btail sells
            (done ++ [b.transact b.bid, a.transact b.bid])
            (avg + (b.bid - avg) / ((n : α) + 1)) (n + 1)
        else loop rest buys (List.orderedInsert byBidDesc a sells) done avg n
      | [] => loop rest buys (List.orderedInsert byBidDesc a sells) done avg n

/-- `impl Market for Cda` (src/market.rs).  The call
`agents.shuffle(&mut rand::thread_rng())` is embedded by the explicit
`shuffle` argument (the claims quantify over all permutations).  Returns the
incremental average transaction price if any transaction happened. -/
def simulate (shuffle : List (Agent α) → List (Agent α))
    (agents : List (Agent α)) : Option α × List (Agent α) :=
  let res := loop (shuffle agents) [] [] [] 0 0
  (if 0 < res.2.2 then some res.2.1 else none, res.1)

/-- Specification-side companion of `Cda.loop`: the same recursion on the same
arrival sequence, recording the list of per-transaction prices (each price
being the resting counter-order's quoted side) instead of the incremental
average.  Used to state that the returned average is the arithmetic mean of
the per-transaction prices. -/
def trace : List (Agent α) → List (Agent α) → List (Agent α) → List (Agent α) →
    List (Agent α) × List α
  | [], buys, sells, done => (done ++ buys ++ sells, [])
  | a :: rest, buys, sells, done =>
    if a.buyer then
      match sells with
      | s :: stail =>
        if -s.bid ≤ a.bid then
          let res := trace rest buys stail
            (done ++ [a.transact (-s.bid), s.transact (-s.bid)])
          (res.1, -s.bid :: res.2)
        else trace rest (List.orderedInsert byBidDesc a buys) sells done
      | [] => trace rest (List.orderedInsert byBidDesc a buys) sells done
    else
      match buys with
      | b :: btail =>
        if -a.bid ≤ b.bid then
          let res := trace rest btail sells
            (done ++ [b.transact b.bid, a.transact b.bid])
          (res.1, b.bid :: res.2)
        else trace rest buys (List.orderedInsert byBidDesc a sells) done
      | [] => trace rest buys (List.orderedInsert byBidDesc a sells) done

/-- The incremental average `avg += (price - avg) / count` of the Rust closure
`trans`, folded over a list of prices starting from average `avg` of `n`
previous prices. -/
def avgFold : α → ℕ → List α → α
  | avg, _, [] => avg
  | avg, n, p :: ps => avgFold (avg + (p - avg) / ((n : α) + 1)) (n + 1) ps

end Cda

/-- The per-round features of `src/main.rs` (`struct Features`). -/
structure Features where
  surplus : ℝ
  ce_surplus : ℝ
  im_surplus : ℝ
  em_surplus : ℝ
  ce_price : Option ℝ

/-- Which mechanism is configured as the actual clearing market
(`spec.configuration.cda`). -/
inductive Mech
  | call
  | cda
deriving DecidableEq, Repr

/-- The resample step of `run_sim`: every agent draws a fresh value; the random
draws are made an explicit list, one per agent. -/
def resampleAll (agents : List (Agent α)) (values : List α) : List (Agent α) :=
  (agents.zip values).map fun p => p.1.resample p.2

/-- The population as it stands when the actual mechanism of `run_sim` runs:
resampled, benchmark-cleared (with `ce_traded` recorded), then shaded.
Named separately so that theorems can speak about the list the configured
mechanism shuffles. -/
noncomputable def shadedPop (agents : List (Agent ℝ)) (values : List ℝ) :
    List (Agent ℝ) :=
  (((Call.simulate (resampleAll agents values)).2).map
    (fun a => { a with ce_traded := a.traded })).map Agent.shade

/-- `run_sim` (src/main.rs): resample, benchmark-clear with the call market on
truthful bids, record `ce_traded` and `ce_surplus`, shade, clear with the
configured mechanism, and decompose the surplus.  Randomness (the value draws
and the CDA shuffle) is passed explicitly. -/
noncomputable def run_sim (agents : List (Agent ℝ)) (values : List ℝ)
    (shuffle : List (Agent ℝ) → List (Agent ℝ)) (mech : Mech) :
    Features × List (Agent ℝ) :=
  let sampled := resampleAll agents values
  let cleared := Call.simulate sampled
  let ce_price := cleared.1
  let bench := cleared.2.map fun a => { a with ce_traded := a.traded }
  let ce_surplus := (bench.map (fun a => a.utility)).sum
  let shaded := bench.map Agent.shade
  let out := (match mech with
    | Mech.call => Call.simulate shaded
    | Mech.cda => Cda.simulate shuffle shaded).2
  let surplus := (out.map (fun a => a.utility)).sum
  match ce_price with
  | some price =>
      ({ surplus := surplus, ce_surplus := ce_surplus,
         im_surplus := (out.map (fun a =>
           if !a.traded && a.ce_traded then a.sign * (a.value - price) else 0)).sum,
         em_surplus := (out.map (fun a =>
           if a.traded && !a.ce_traded then a.sign * (price - a.value) else 0)).sum,
         ce_price := some price }, out)
  | none =>
      ({ surplus := surplus, ce_surplus := ce_surplus,
         im_surplus := 0, em_surplus := ce_surplus - surplus,
         ce_price := none }, out)

/-! ## Basic agent lemmas -/

namespace Agent

@[simp] lemma sign_buyer (a : Agent α) (h : a.buyer = true) : a.sign = 1 := by
  simp [sign, h]

@[simp] lemma sign_seller (a : Agent α) (h : a.buyer = false) : a.sign = -1 := by
  simp [sign, h]

lemma shade_buyer (a : Agent ℝ) : a.shade.buyer = a.buyer := rfl

lemma shade_value (a : Agent ℝ) : a.shade.value = a.value := rfl

lemma shade_shading (a : Agent ℝ) : a.shade.shading = a.shading := rfl

lemma shade_style (a : Agent ℝ) : a.shade.style = a.style := rfl

lemma shade_ce_traded (a : Agent ℝ) : a.shade.ce_traded = a.ce_traded := rfl

lemma shade_utility (a : Agent ℝ) : a.shade.utility = 0 := rfl

lemma shade_traded (a : Agent ℝ) : a.shade.traded = false := rfl

lemma shade_sign (a : Agent ℝ) : a.shade.sign = a.sign := rfl

lemma resample_value (a : Agent α) (v : α) : (a.resample v).value = v := rfl

lemma resample_buyer (a : Agent α) (v : α) : (a.resample v).buyer = a.buyer := rfl

lemma resample_shading (a : Agent α) (v : α) : (a.resample v).shading = a.shading := rfl

lemma shade_bid (a : Agent ℝ) :
    a.shade.bid =
      match a.style, a.buyer with
      | Style.Standard, _ => a.value * (a.sign - a.shading)
      | Style.Correct, true => a.value * (a.sign - a.shading)
      | Style.Correct, false => (a.value - 1) * a.shading - a.value
      | Style.Exponential, _ => a.sign * a.value * Real.exp (-a.sign * a.shading)
      | Style.Shift, _ => a.sign * a.value - a.shading := rfl

/-- Core bidding-monotonicity fact: for any style, any shading strength in
[0, 1] and any private value in [0, 1], the bid computed by `shade` never
exceeds `sign * value`. -/
lemma shade_bid_le_core (a : Agent ℝ) (hs0 : 0 ≤ a.shading) (hv0 : 0 ≤ a.value)
    (hv1 : a.value ≤ 1) : a.shade.bid ≤ a.sign * a.value := by
  have hvs : 0 ≤ a.value * a.shading := mul_nonneg hv0 hs0
  rw [shade_bid]
  simp only [sign]
  cases hst : a.style <;> cases hb : a.buyer <;>
    simp only [Bool.false_eq_true, if_true, if_false, ite_true, ite_false]
  · nlinarith
  · nlinarith
  · -- Exponential seller: -value * exp(shading) ≤ -value
    have h1 : 1 ≤ Real.exp (-(-1) * a.shading) := by
      rw [neg_neg, one_mul]
      exact Real.one_le_exp hs0
    nlinarith
  · -- Exponential buyer: value * exp (-shading) ≤ value
    have h1 : Real.exp (-1 * a.shading) ≤ 1 := by
      rw [Real.exp_le_one_iff]
      nlinarith
    nlinarith
  · nlinarith
  · nlinarith
  · -- Correct seller: (value - 1) * shading - value ≤ -value
    nlinarith
  · nlinarith

end Agent

/-- One round-scoped agent lifecycle step: resample a fresh value, then apply
the bidding model (`resample` then `shade`, as `run_sim` does each round). -/
noncomputable def cycle (a : Agent ℝ) (v : ℝ) : Agent ℝ := (a.resample v).shade

lemma cycle_shading (a : Agent ℝ) (vs : List ℝ) :
    (vs.foldl cycle a).shading = a.shading := by
  induction vs generalizing a with
  | nil => rfl
  | cons v vs ih => rw [List.foldl_cons, ih]; rfl

/-- C3: for every role, every shading style, every shading strength in [0,1]
and every private value in [0,1], after the bidding model recomputes the bid
we have `bid ≤ sign * value`; this holds across arbitrarily many repeated
resample/shade cycles on the same agent (the last cycle's value is `v`). -/
theorem shade_never_more_aggressive (a : Agent ℝ) (vs : List ℝ) (v : ℝ)
    (hs0 : 0 ≤ a.shading) (hs1 : a.shading ≤ 1) (hv0 : 0 ≤ v) (hv1 : v ≤ 1) :
    (cycle (vs.foldl cycle a) v).bid ≤
      (cycle (vs.foldl cycle a) v).sign * (cycle (vs.foldl cycle a) v).value := by
  set b := vs.foldl cycle a with hb
  have hsh : b.shading = a.shading := cycle_shading a vs
  have h1 : (b.resample v).shading = a.shading := by
    rw [Agent.resample_shading, hsh]
  have h2 : (b.resample v).value = v := Agent.resample_value b v
  have := Agent.shade_bid_le_core (b.resample v) (by rw [h1]; exact hs0)
    (by rw [h2]; exact hv0) (by rw [h2]; exact hv1)
  calc (cycle b v).bid ≤ (b.resample v).sign * (b.resample v).value := this
    _ = (cycle b v).sign * (cycle b v).value := by
        rw [cycle, Agent.shade_sign, Agent.shade_value]

/-- Witness for C3 at a concrete input: a truthful Correct-style buyer. -/
theorem shade_never_more_aggressive_witness :
    (0 : ℝ) ≤ (Agent.new true "" Style.Correct (0 : ℝ)).shading ∧
    (Agent.new true "" Style.Correct (0 : ℝ)).shading ≤ 1 ∧
    (0 : ℝ) ≤ (1 / 2 : ℝ) ∧ (1 / 2 : ℝ) ≤ 1 ∧
    (cycle (List.foldl cycle (Agent.new true "" Style.Correct (0 : ℝ)) [1]) (1 / 2)).bid ≤
      (cycle (List.foldl cycle (Agent.new true "" Style.Correct (0 : ℝ)) [1]) (1 / 2)).sign *
        (cycle (List.foldl cycle (Agent.new true "" Style.Correct (0 : ℝ)) [1]) (1 / 2)).value :=
  ⟨by norm_num [Agent.new], by norm_num [Agent.new], by norm_num, by norm_num,
    shade_never_more_aggressive (Agent.new true "" Style.Correct 0) [1] (1 / 2)
      (by norm_num [Agent.new]) (by norm_num [Agent.new]) (by norm_num) (by norm_num)⟩

/-- C4 counterexample: a Standard-style seller with shading strength 1 and
private value 1 (both within [0,1]) gets bid -2 from the bidding model, so
`sign * bid = 2 > 1 = value`: the claimed inequality `sign*bid ≤ value` fails. -/
theorem sign_bid_le_value_counterexample :
    ¬ (({ Agent.new false "" Style.Standard (1 : ℝ) with value := 1 } : Agent ℝ).shade.sign *
        ({ Agent.new false "" Style.Standard (1 : ℝ) with value := 1 } : Agent ℝ).shade.bid ≤
       ({ Agent.new false "" Style.Standard (1 : ℝ) with value := 1 } : Agent ℝ).shade.value) := by
  norm_num [Agent.new, Agent.shade, Agent.reset, Agent.sign]

/-- C4 amended: with the inequality oriented as in the code's own test
(`agent.bid <= agent.sign() * agent.value`), the bidding model satisfies
`bid ≤ sign * value` for every style, role, shading strength in [0,1] and
value in [0,1]; repeated resample/shade cycles keep satisfying it because
`shade` depends only on the persistent fields and the freshly drawn value. -/
theorem shade_bid_le_sign_mul_value (a : Agent ℝ) (hs0 : 0 ≤ a.shading)
    (hs1 : a.shading ≤ 1) (hv0 : 0 ≤ a.value) (hv1 : a.value ≤ 1) :
    a.shade.bid ≤ a.shade.sign * a.shade.value :=
  Agent.shade_bid_le_core a hs0 hv0 hv1

/-- Witness for the amended C4 at a concrete input: a Shift-style seller. -/
theorem shade_bid_le_sign_mul_value_witness :
    (0 : ℝ) ≤ ({ Agent.new false "" Style.Shift (1 / 4 : ℝ) with value := 3 / 4 } : Agent ℝ).shading ∧
    ({ Agent.new false "" Style.Shift (1 / 4 : ℝ) with value := 3 / 4 } : Agent ℝ).shading ≤ 1 ∧
    (0 : ℝ) ≤ ({ Agent.new false "" Style.Shift (1 / 4 : ℝ) with value := 3 / 4 } : Agent ℝ).value ∧
    ({ Agent.new false "" Style.Shift (1 / 4 : ℝ) with value := 3 / 4 } : Agent ℝ).value ≤ 1 ∧
    ({ Agent.new false "" Style.Shift (1 / 4 : ℝ) with value := 3 / 4 } : Agent ℝ).shade.bid ≤
      ({ Agent.new false "" Style.Shift (1 / 4 : ℝ) with value := 3 / 4 } : Agent ℝ).shade.sign *
        ({ Agent.new false "" Style.Shift (1 / 4 : ℝ) with value := 3 / 4 } : Agent ℝ).shade.value :=
  ⟨by norm_num [Agent.new], by norm_num [Agent.new], by norm_num [Agent.new],
    by norm_num [Agent.new],
    shade_bid_le_sign_mul_value _ (by norm_num [Agent.new]) (by norm_num [Agent.new])
      (by norm_num [Agent.new]) (by norm_num [Agent.new])⟩

/-! ## C7: degenerate decomposition when the benchmark has no trades -/

/-- C7: in any round in which the benchmark call clearing produces no price
(`ce_price = None`), `run_sim` sets `em_surplus = ce_surplus - surplus` and
`im_surplus = 0`. -/
theorem run_sim_no_benchmark_decomposition (agents : List (Agent ℝ))
    (values : List ℝ) (shuffle : List (Agent ℝ) → List (Agent ℝ)) (mech : Mech)
    (h : ((run_sim agents values shuffle mech).1).ce_price = none) :
    ((run_sim agents values shuffle mech).1).em_surplus =
        ((run_sim agents values shuffle mech).1).ce_surplus -
          ((run_sim agents values shuffle mech).1).surplus ∧
      ((run_sim agents values shuffle mech).1).im_surplus = 0 := by
  simp only [run_sim] at h ⊢
  rcases hc : (Call.simulate (resampleAll agents values)).1 with _ | p
  · simp only [hc]
    exact ⟨trivial, trivial⟩
  · simp only [hc] at h
    exact absurd h (by simp)

/-- Witness for C7: one lone buyer, so the benchmark call market cannot match
anyone and returns no price. -/
theorem run_sim_no_benchmark_decomposition_witness :
    ((run_sim [Agent.new true "" Style.Standard 0] [1/2] id Mech.call).1).ce_price = none ∧
    ((run_sim [Agent.new true "" Style.Standard 0] [1/2] id Mech.call).1).em_surplus =
        ((run_sim [Agent.new true "" Style.Standard 0] [1/2] id Mech.call).1).ce_surplus -
          ((run_sim [Agent.new true "" Style.Standard 0] [1/2] id Mech.call).1).surplus ∧
      ((run_sim [Agent.new true "" Style.Standard 0] [1/2] id Mech.call).1).im_surplus = 0 :=
  ⟨rfl, run_sim_no_benchmark_decomposition _ _ _ _ rfl⟩

/-! ## C9: CDA trade-count bound -/

namespace Cda

lemma mem_orderedInsert {a x : Agent α} {l : List (Agent α)}
    (h : x ∈ List.orderedInsert byBidDesc a l) : x = a ∨ x ∈ l := by
  have := (List.perm_orderedInsert byBidDesc a l).mem_iff.mp h
  simpa using this

/-- Each future transaction of the loop consumes one arriving and one resting
agent, so the final transaction count is bounded by half the agents that can
still take part. -/
lemma loop_count_le (rest buys sells done : List (Agent α)) (avg : α) (n : ℕ) :
    (loop rest buys sells done avg n).2.2 ≤
      n + (rest.length + buys.length + sells.length) / 2 := by
  induction rest generalizing buys sells done avg n with
  | nil => simpa [loop] using Nat.le_add_right n _
  | cons a rest ih =>
    rcases hb : a.buyer with _ | _
    · rcases buys with _ | ⟨b, btail⟩
      · simp only [loop, hb, Bool.false_eq_true, if_false]
        refine le_trans (ih _ _ _ _ _) ?_
        rw [List.orderedInsert_length]
        simp only [List.length_cons, List.length_nil]
        omega
      · simp only [loop, hb, Bool.false_eq_true, if_false]
        by_cases hle : -a.bid ≤ b.bid
        · rw [if_pos hle]
          refine le_trans (ih _ _ _ _ _) ?_
          simp only [List.length_cons]
          omega
        · rw [if_neg hle]
          refine le_trans (ih _ _ _ _ _) ?_
          rw [List.orderedInsert_length]
          simp only [List.length_cons]
          omega
    · rcases sells with _ | ⟨s, stail⟩
      · simp only [loop, hb, if_true]
        refine le_trans (ih _ _ _ _ _) ?_
        rw [List.orderedInsert_length]
        simp only [List.length_cons, List.length_nil]
        omega
      · simp only [loop, hb, if_true]
        by_cases hle : -s.bid ≤ a.bid
        · rw [if_pos hle]
          refine le_trans (ih _ _ _ _ _) ?_
          simp only [List.length_cons]
          omega
        · rw [if_neg hle]
          refine le_trans (ih _ _ _ _ _) ?_
          rw [List.orderedInsert_length]
          simp only [List.length_cons]
          omega

/-- Every transaction marks exactly two agents (one buyer, one seller) as
traded: the number of traded agents in the loop's output is twice the number
of transactions it performed. -/
lemma loop_traded_count (rest buys sells done : List (Agent α)) (avg : α) (n : ℕ)
    (Hb : ∀ x ∈ buys, x.traded = false) (Hs : ∀ x ∈ sells, x.traded = false)
    (Hr : ∀ x ∈ rest, x.traded = false) (Hd : ∀ x ∈ done, x.traded = true) :
    (((loop rest buys sells done avg n).1.filter (fun a => a.traded)).length) + 2 * n =
      done.length + 2 * (loop rest buys sells done avg n).2.2 := by
  induction rest generalizing buys sells done avg n with
  | nil =>
    rw [loop]
    simp only [List.filter_append]
    rw [List.filter_eq_self.mpr (by intro x hx; simpa using Hd x hx),
      List.filter_eq_nil.mpr (by intro x hx; simp [Hb x hx]),
      List.filter_eq_nil.mpr (by intro x hx; simp [Hs x hx])]
    simp
  | cons a rest ih =>
    have hinsB : ∀ c, c.traded = false →
        ∀ x ∈ List.orderedInsert byBidDesc c buys, x.traded = false := by
      intro c hc x hx
      rcases mem_orderedInsert hx with h | h
      · rw [h]; exact hc
      · exact Hb x h
    have hinsS : ∀ c, c.traded = false →
        ∀ x ∈ List.orderedInsert byBidDesc c sells, x.traded = false := by
      intro c hc x hx
      rcases mem_orderedInsert hx with h | h
      · rw [h]; exact hc
      · exact Hs x h
    have hat : a.traded = false := Hr a (List.mem_cons_self a rest)
    have hrt : ∀ x ∈ rest, x.traded = false := fun x hx => Hr x (List.mem_cons_of_mem _ hx)
    rcases hb : a.buyer with _ | _
    · rcases buys with _ | ⟨b, btail⟩
      · simp only [loop, hb, Bool.false_eq_true, if_false]
        exact ih _ _ _ _ _ Hb (hinsS a hat) hrt Hd
      · simp only [loop, hb, Bool.false_eq_true, if_false]
        by_cases hle : -a.bid ≤ b.bid
        · rw [if_pos hle]
          have hd : ∀ x ∈ done ++ [b.transact b.bid, a.transact b.bid],
              x.traded = true := by
            intro x hx
            rcases List.mem_append.mp hx with h | h
            · exact Hd x h
            · simp only [List.mem_cons, List.not_mem_nil, or_false] at h
              rcases h with h | h
              · rw [h]; rfl
              · rw [h]; rfl
          have := ih btail sells (done ++ [b.transact b.bid, a.transact b.bid])
            (avg + (b.bid - avg) / ((n : α) + 1)) (n + 1)
            (fun x hx => Hb x (List.mem_cons_of_mem _ hx)) Hs hrt hd
          simp only [List.length_append, List.length_cons, List.length_nil] at this ⊢
          omega
        · rw [if_neg hle]
          exact ih _ _ _ _ _ Hb (hinsS a hat) hrt Hd
    · rcases sells with _ | ⟨s, stail⟩
      · simp only [loop, hb, if_true]
        exact ih _ _ _ _ _ (hinsB a hat) Hs hrt Hd
      · simp only [loop, hb, if_true]
        by_cases hle : -s.bid ≤ a.bid
        · rw [if_pos hle]
          have hd : ∀ x ∈ done ++ [a.transact (-s.bid), s.transact (-s.bid)],
              x.traded = true := by
            intro x hx
            rcases List.mem_append.mp hx with h | h
            · exact Hd x h
            · simp only [List.mem_cons, List.not_mem_nil, or_false] at h
              rcases h with h | h
              · rw [h]; rfl
              · rw [h]; rfl
          have := ih buys stail (done ++ [a.transact (-s.bid), s.transact (-s.bid)])
            (avg + (-s.bid - avg) / ((n : α) + 1)) (n + 1)
            Hb (fun x hx => Hs x (List.mem_cons_of_mem _ hx)) hrt hd
          simp only [List.length_append, List.length_cons, List.length_nil] at this ⊢
          omega
        · rw [if_neg hle]
          exact ih _ _ _ _ _ (hinsB a hat) Hs hrt Hd

end Cda

/-- C9: for any population of size n, any arrival order, and any initial state
with no stale `traded` flags, the number of CDA transactions (each of which
applies `transact` to exactly one buyer and one seller, so the output holds
twice that many traded agents) is between 0 and n / 2 (inclusive). -/
theorem cda_trade_count_bound (shuffle : List (Agent α) → List (Agent α))
    (agents : List (Agent α)) (hσ : (shuffle agents).Perm agents)
    (h0 : ∀ a ∈ agents, a.traded = false) :
    (((Cda.simulate shuffle agents).2.filter (fun a => a.traded)).length) =
        2 * (Cda.loop (shuffle agents) [] [] [] 0 0).2.2 ∧
      0 ≤ (Cda.loop (shuffle agents) [] [] [] 0 0).2.2 ∧
      (Cda.loop (shuffle agents) [] [] [] 0 0).2.2 ≤ agents.length / 2 := by
  have hr : ∀ x ∈ shuffle agents, x.traded = false := fun x hx => h0 x (hσ.mem_iff.mp hx)
  have h1 := Cda.loop_traded_count (α := α) (shuffle agents) [] [] [] 0 0
    (by intro x hx; cases hx) (by intro x hx; cases hx) hr (by intro x hx; cases hx)
  have h2 := Cda.loop_count_le (α := α) (shuffle agents) [] [] [] 0 0
  have hlen : (shuffle agents).length = agents.length := hσ.length_eq
  refine ⟨?_, Nat.zero_le _, ?_⟩
  · simpa [Cda.simulate] using h1
  · simp only [List.length_nil] at h2
    omega

/-- Witness for C9: two compatible agents arriving in order trade once. -/
theorem cda_trade_count_bound_witness :
    (([{ Agent.new true "" Style.Standard (0 : ℚ) with bid := 1 },
       { Agent.new false "" Style.Standard (0 : ℚ) with bid := -1/2 }] :
        List (Agent ℚ)).Perm
      [{ Agent.new true "" Style.Standard (0 : ℚ) with bid := 1 },
       { Agent.new false "" Style.Standard (0 : ℚ) with bid := -1/2 }]) ∧
    (∀ a ∈ ([{ Agent.new true "" Style.Standard (0 : ℚ) with bid := 1 },
       { Agent.new false "" Style.Standard (0 : ℚ) with bid := -1/2 }] :
        List (Agent ℚ)), a.traded = false) ∧
    ((((Cda.simulate id [{ Agent.new true "" Style.Standard (0 : ℚ) with bid := 1 },
          { Agent.new false "" Style.Standard (0 : ℚ) with bid := -1/2 }]).2.filter
        (fun a => a.traded)).length) =
        2 * (Cda.loop (id [{ Agent.new true "" Style.Standard (0 : ℚ) with bid := 1 },
          { Agent.new false "" Style.Standard (0 : ℚ) with bid := -1/2 }]) [] [] [] 0 0).2.2 ∧
      0 ≤ (Cda.loop (id [{ Agent.new true "" Style.Standard (0 : ℚ) with bid := 1 },
          { Agent.new false "" Style.Standard (0 : ℚ) with bid := -1/2 }]) [] [] [] 0 0).2.2 ∧
      (Cda.loop (id [{ Agent.new true "" Style.Standard (0 : ℚ) with bid := 1 },
          { Agent.new false "" Style.Standard (0 : ℚ) with bid := -1/2 }]) [] [] [] 0 0).2.2 ≤
        ([{ Agent.new true "" Style.Standard (0 : ℚ) with bid := 1 },
          { Agent.new false "" Style.Standard (0 : ℚ) with bid := -1/2 }] :
          List (Agent ℚ)).length / 2) :=
  ⟨List.Perm.refl _, by decide,
    cda_trade_count_bound id _ (List.Perm.refl _) (by decide)⟩

/-! ## C6: no-match boundary -/

lemma matchedCount_nil_left (ss : List (Agent α)) : matchedCount [] ss = 0 := by
  cases ss <;> rfl

lemma matchedCount_nil_right (bs : List (Agent α)) : matchedCount bs [] = 0 := by
  cases bs <;> rfl

lemma mem_sortedBuys {agents : List (Agent α)} {x : Agent α}
    (h : x ∈ Call.sortedBuys agents) : x ∈ agents ∧ x.buyer = true := by
  rw [Call.sortedBuys, List.mem_insertionSort] at h
  exact List.mem_filter.mp h

lemma mem_sortedSells {agents : List (Agent α)} {x : Agent α}
    (h : x ∈ Call.sortedSells agents) : x ∈ agents ∧ x.buyer = false := by
  rw [Call.sortedSells, List.mem_insertionSort] at h
  have := List.mem_filter.mp h
  exact ⟨this.1, by simpa using this.2⟩

namespace Cda

/-- If no buyer in play can afford any seller in play, the loop never
transacts: the average and the count are untouched, and every output agent is
either from `done` or an untouched participant. -/
lemma loop_no_trade (P : Agent α → Prop) (rest buys sells done : List (Agent α))
    (avg : α) (n : ℕ)
    (Hb : ∀ x ∈ buys, x.buyer = true ∧ P x)
    (Hs : ∀ x ∈ sells, x.buyer = false ∧ P x)
    (Hr : ∀ x ∈ rest, P x)
    (Hlt : ∀ x y, P x → P y → x.buyer = true → y.buyer = false → x.bid < -y.bid) :
    (loop rest buys sells done avg n).2 = (avg, n) ∧
      ∀ x ∈ (loop rest buys sells done avg n).1, x ∈ done ∨ P x := by
  induction rest generalizing buys sells done avg n with
  | nil =>
    refine ⟨rfl, ?_⟩
    intro x hx
    simp only [loop] at hx
    rcases List.mem_append.mp hx with h | h
    · rcases List.mem_append.mp h with h | h
      · exact Or.inl h
      · exact Or.inr (Hb x h).2
    · exact Or.inr (Hs x h).2
  | cons a rest ih =>
    have hPa : P a := Hr a (List.mem_cons_self a rest)
    have hrt : ∀ x ∈ rest, P x := fun x hx => Hr x (List.mem_cons_of_mem _ hx)
    have hinsB : a.buyer = true →
        ∀ x ∈ List.orderedInsert byBidDesc a buys, x.buyer = true ∧ P x := by
      intro hb x hx
      rcases mem_orderedInsert hx with h | h
      · rw [h]; exact ⟨hb, hPa⟩
      · exact Hb x h
    have hinsS : a.buyer = false →
        ∀ x ∈ List.orderedInsert byBidDesc a sells, x.buyer = false ∧ P x := by
      intro hb x hx
      rcases mem_orderedInsert hx with h | h
      · rw [h]; exact ⟨hb, hPa⟩
      · exact Hs x h
    rcases hb : a.buyer with _ | _
    · rcases buys with _ | ⟨b, btail⟩
      · simp only [loop, hb, Bool.false_eq_true, if_false]
        exact ih _ _ _ _ _ Hb (hinsS hb) hrt
      · have hbb := Hb b (List.mem_cons_self b btail)
        have hno : ¬ (-a.bid ≤ b.bid) := by
          have := Hlt b a hbb.2 hPa hbb.1 hb
          linarith
        simp only [loop, hb, Bool.false_eq_true, if_false, if_neg hno]
        exact ih _ _ _ _ _ Hb (hinsS hb) hrt
    · rcases sells with _ | ⟨s, stail⟩
      · simp only [loop, hb, if_true]
        exact ih _ _ _ _ _ (hinsB hb) Hs hrt
      · have hss := Hs s (List.mem_cons_self s stail)
        have hno : ¬ (-s.bid ≤ a.bid) := by
          have := Hlt a s hPa hss.2 hb hss.1
          linarith
        simp only [loop, hb, if_true, if_neg hno]
        exact ih _ _ _ _ _ (hinsB hb) Hs hrt

end Cda

/-- C6: in a population where every buyer's bid is strictly below every
seller's ask, the call market returns `None` and leaves the population
untouched, and the CDA (under every arrival order) returns `None` and leaves
every agent untraded with zero utility. -/
theorem no_match_boundary (shuffle : List (Agent α) → List (Agent α))
    (agents : List (Agent α)) (hσ : (shuffle agents).Perm agents)
    (hlt : ∀ b ∈ agents, b.buyer = true → ∀ s ∈ agents, s.buyer = false →
      b.bid < -s.bid)
    (h0 : ∀ a ∈ agents, a.traded = false ∧ a.utility = 0) :
    Call.simulate agents = (none, agents) ∧
      (∀ a ∈ (Call.simulate agents).2, a.traded = false ∧ a.utility = 0) ∧
      (Cda.simulate shuffle agents).1 = none ∧
      (∀ a ∈ (Cda.simulate shuffle agents).2, a.traded = false ∧ a.utility = 0) := by
  have hm : matchedCount (Call.sortedBuys agents) (Call.sortedSells agents) = 0 := by
    rcases hbs : Call.sortedBuys agents with _ | ⟨b, bs⟩
    · exact matchedCount_nil_left _
    · rcases hss : Call.sortedSells agents with _ | ⟨s, ss⟩
      · exact matchedCount_nil_right _
      · have hbm := mem_sortedBuys (hbs ▸ List.mem_cons_self b bs)
        have hsm := mem_sortedSells (hss ▸ List.mem_cons_self s ss)
        have := hlt b hbm.1 hbm.2 s hsm.1 hsm.2
        rw [matchedCount, if_neg (by linarith)]
  have hcall : Call.simulate agents = (none, agents) := by
    simp [Call.simulate, hm]
  have hcda := Cda.loop_no_trade (fun x => x ∈ agents) (shuffle agents) [] [] [] 0 0
    (by intro x hx; cases hx) (by intro x hx; cases hx)
    (fun x hx => hσ.mem_iff.mp hx)
    (fun x y hx hy hbx hby => hlt x hx hbx y hy hby)
  refine ⟨hcall, ?_, ?_, ?_⟩
  · rw [hcall]
    exact h0
  · simp only [Cda.simulate, hcda.1]
    norm_num
  · intro a ha
    simp only [Cda.simulate] at ha
    rcases hcda.2 a ha with h | h
    · cases h
    · exact h0 a h

/-- Witness for C6: one buyer quoting 0 against one seller asking 1. -/
theorem no_match_boundary_witness :
    (([{ Agent.new true "" Style.Standard (0 : ℚ) with bid := 0 },
       { Agent.new false "" Style.Standard (0 : ℚ) with bid := -1 }] :
        List (Agent ℚ)).Perm
      [{ Agent.new true "" Style.Standard (0 : ℚ) with bid := 0 },
       { Agent.new false "" Style.Standard (0 : ℚ) with bid := -1 }]) ∧
    (∀ b ∈ ([{ Agent.new true "" Style.Standard (0 : ℚ) with bid := 0 },
       { Agent.new false "" Style.Standard (0 : ℚ) with bid := -1 }] :
        List (Agent ℚ)), b.buyer = true →
      ∀ s ∈ ([{ Agent.new true "" Style.Standard (0 : ℚ) with bid := 0 },
        { Agent.new false "" Style.Standard (0 : ℚ) with bid := -1 }] :
          List (Agent ℚ)), s.buyer = false → b.bid < -s.bid) ∧
    (∀ a ∈ ([{ Agent.new true "" Style.Standard (0 : ℚ) with bid := 0 },
       { Agent.new false "" Style.Standard (0 : ℚ) with bid := -1 }] :
        List (Agent ℚ)), a.traded = false ∧ a.utility = 0) ∧
    (Call.simulate [{ Agent.new true "" Style.Standard (0 : ℚ) with bid := 0 },
        { Agent.new false "" Style.Standard (0 : ℚ) with bid := -1 }] =
      (none, [{ Agent.new true "" Style.Standard (0 : ℚ) with bid := 0 },
        { Agent.new false "" Style.Standard (0 : ℚ) with bid := -1 }])) ∧
    ((Cda.simulate id [{ Agent.new true "" Style.Standard (0 : ℚ) with bid := 0 },
        { Agent.new false "" Style.Standard (0 : ℚ) with bid := -1 }]).1 = none) :=
  ⟨List.Perm.refl _, by decide, by decide,
    (no_match_boundary id _ (List.Perm.refl _) (by decide) (by decide)).1,
    (no_match_boundary id _ (List.Perm.refl _) (by decide) (by decide)).2.2.1⟩

/-! ## C2: call market functional specification -/

lemma matchedCount_le_left (bs ss : List (Agent α)) :
    matchedCount bs ss ≤ bs.length := by
  induction bs generalizing ss with
  | nil => rw [matchedCount_nil_left]; exact Nat.zero_le _
  | cons b bs ih =>
    rcases ss with _ | ⟨s, ss⟩
    · rw [matchedCount_nil_right]; exact Nat.zero_le _
    · rw [matchedCount]
      by_cases h : -s.bid ≤ b.bid
      · rw [if_pos h]
        simpa using Nat.succ_le_succ (ih ss)
      · rw [if_neg h]
        exact Nat.zero_le _

lemma matchedCount_le_right (bs ss : List (Agent α)) :
    matchedCount bs ss ≤ ss.length := by
  induction bs generalizing ss with
  | nil => rw [matchedCount_nil_left]; exact Nat.zero_le _
  | cons b bs ih =>
    rcases ss with _ | ⟨s, ss⟩
    · rw [matchedCount_nil_right]; exact Nat.zero_le _
    · rw [matchedCount]
      by_cases h : -s.bid ≤ b.bid
      · rw [if_pos h]
        simpa using Nat.succ_le_succ (ih ss)
      · rw [if_neg h]
        exact Nat.zero_le _

/-- Every pair below the matched count is compatible: the i-th most aggressive
buyer's bid covers the i-th most aggressive seller's ask. -/
lemma matchedCount_spec (bs ss : List (Agent α)) :
    ∀ i, i < matchedCount bs ss →
      -((ss.getD i default).bid) ≤ (bs.getD i default).bid := by
  induction bs generalizing ss with
  | nil => intro i hi; rw [matchedCount_nil_left] at hi; cases hi
  | cons b bs ih =>
    intro i hi
    rcases ss with _ | ⟨s, ss⟩
    · rw [matchedCount_nil_right] at hi; cases hi
    · rw [matchedCount] at hi
      by_cases h : -s.bid ≤ b.bid
      · rw [if_pos h] at hi
        rcases i with _ | i
        · simpa using h
        · simp only [List.getD_cons_succ]
          exact ih ss i (Nat.lt_of_succ_lt_succ hi)
      · rw [if_neg h] at hi; cases hi

/-- The matched count is the largest k (within both side lengths) such that
all pairs below k are compatible. -/
lemma matchedCount_max (bs ss : List (Agent α)) :
    ∀ k, k ≤ bs.length → k ≤ ss.length →
      (∀ i, i < k → -((ss.getD i default).bid) ≤ (bs.getD i default).bid) →
      k ≤ matchedCount bs ss := by
  induction bs generalizing ss with
  | nil => intro k hk _ _; simpa [matchedCount_nil_left] using hk
  | cons b bs ih =>
    intro k hkb hks hcomp
    rcases k with _ | k
    · exact Nat.zero_le _
    rcases ss with _ | ⟨s, ss⟩
    · cases hks
    have h0 := hcomp 0 (Nat.succ_pos k)
    simp only [List.getD_cons_zero] at h0
    rw [matchedCount, if_pos h0]
    refine Nat.succ_le_succ (ih ss k (Nat.le_of_succ_le_succ hkb)
      (Nat.le_of_succ_le_succ hks) ?_)
    intro i hi
    have := hcomp (i + 1) (Nat.succ_lt_succ hi)
    simpa only [List.getD_cons_succ] using this

/-- In a descending-sorted list, later entries have no higher bids. -/
lemma sorted_getD_le {l : List (Agent α)} (hs : List.Sorted byBidDesc l)
    {i j : ℕ} (hij : i ≤ j) (hj : j < l.length) :
    (l.getD j default).bid ≤ (l.getD i default).bid := by
  rcases Nat.lt_or_ge i j with h | h
  · have := (List.pairwise_iff_getElem.mp hs) i j (lt_of_le_of_lt hij hj) hj h
    rw [List.getD_eq_getElem l default hj, List.getD_eq_getElem l default
      (lt_of_le_of_lt hij hj)]
    exact this
  · have : i = j := le_antisymm hij h
    rw [this]

lemma sortedBuys_sorted (agents : List (Agent α)) :
    List.Sorted byBidDesc (Call.sortedBuys agents) :=
  List.sorted_insertionSort byBidDesc _

lemma sortedSells_sorted (agents : List (Agent α)) :
    List.Sorted byBidDesc (Call.sortedSells agents) :=
  List.sorted_insertionSort byBidDesc _

/-- C2: the call market sorts each side by aggressiveness, matches the longest
compatible prefix (ties matching), clears exactly the matched agents at the
marginal midpoint price, and does nothing when no pair is compatible. -/
theorem call_market_spec (agents : List (Agent α)) :
    (Call.sortedBuys agents).Perm (agents.filter (fun a => a.buyer)) ∧
    (Call.sortedSells agents).Perm (agents.filter (fun a => !a.buyer)) ∧
    List.Sorted byBidDesc (Call.sortedBuys agents) ∧
    List.Sorted byBidDesc (Call.sortedSells agents) ∧
    matchedCount (Call.sortedBuys agents) (Call.sortedSells agents) ≤
      (Call.sortedBuys agents).length ∧
    matchedCount (Call.sortedBuys agents) (Call.sortedSells agents) ≤
      (Call.sortedSells agents).length ∧
    (∀ i, i < matchedCount (Call.sortedBuys agents) (Call.sortedSells agents) →
      -(((Call.sortedSells agents).getD i default).bid) ≤
        ((Call.sortedBuys agents).getD i default).bid) ∧
    (∀ k, k ≤ (Call.sortedBuys agents).length →
      k ≤ (Call.sortedSells agents).length →
      (∀ i, i < k → -(((Call.sortedSells agents).getD i default).bid) ≤
        ((Call.sortedBuys agents).getD i default).bid) →
      k ≤ matchedCount (Call.sortedBuys agents) (Call.sortedSells agents)) ∧
    (0 < matchedCount (Call.sortedBuys agents) (Call.sortedSells agents) →
      Call.simulate agents =
        (some ((((Call.sortedBuys agents).getD
            (matchedCount (Call.sortedBuys agents) (Call.sortedSells agents) - 1)
            default).bid -
          ((Call.sortedSells agents).getD
            (matchedCount (Call.sortedBuys agents) (Call.sortedSells agents) - 1)
            default).bid) / 2),
         ((Call.sortedBuys agents).take
            (matchedCount (Call.sortedBuys agents) (Call.sortedSells agents))).map
              (fun b => b.transact ((((Call.sortedBuys agents).getD
                (matchedCount (Call.sortedBuys agents) (Call.sortedSells agents) - 1)
                default).bid -
                ((Call.sortedSells agents).getD
                  (matchedCount (Call.sortedBuys agents) (Call.sortedSells agents) - 1)
                  default).bid) / 2)) ++
            (Call.sortedBuys agents).drop
              (matchedCount (Call.sortedBuys agents) (Call.sortedSells agents)) ++
            ((Call.sortedSells agents).take
              (matchedCount (Call.sortedBuys agents) (Call.sortedSells agents))).map
              (fun s => s.transact ((((Call.sortedBuys agents).getD
                (matchedCount (Call.sortedBuys agents) (Call.sortedSells agents) - 1)
                default).bid -
                ((Call.sortedSells agents).getD
                  (matchedCount (Call.sortedBuys agents) (Call.sortedSells agents) - 1)
                  default).bid) / 2)) ++
            (Call.sortedSells agents).drop
              (matchedCount (Call.sortedBuys agents) (Call.sortedSells agents)))) ∧
    (matchedCount (Call.sortedBuys agents) (Call.sortedSells agents) = 0 →
      Call.simulate agents = (none, agents)) := by
  refine ⟨List.perm_insertionSort byBidDesc _, List.perm_insertionSort byBidDesc _,
    sortedBuys_sorted agents, sortedSells_sorted agents,
    matchedCount_le_left _ _, matchedCount_le_right _ _,
    matchedCount_spec _ _, matchedCount_max _ _, ?_, ?_⟩
  · intro hm
    simp only [Call.simulate, if_pos hm]
  · intro hm
    simp only [Call.simulate, hm, Nat.lt_irrefl, if_false]

/-! ## C10: the call clearing price lies between the marginal quotes -/

/-- C10: whenever the call market returns a price, that price lies between the
marginal matched seller's ask and the marginal matched buyer's bid, and hence
every matched buyer's bid is at least the price and every matched seller's ask
is at most the price: every matched agent trades no worse than its own quote. -/
theorem call_clearing_price_range (agents : List (Agent α)) (p : α)
    (h0 : ∀ a ∈ agents, a.traded = false)
    (hp : (Call.simulate agents).1 = some p) :
    -(((Call.sortedSells agents).getD (matchedCount (Call.sortedBuys agents) (Call.sortedSells agents) - 1) default).bid) ≤ p ∧
    p ≤ ((Call.sortedBuys agents).getD (matchedCount (Call.sortedBuys agents) (Call.sortedSells agents) - 1) default).bid ∧
    ∀ a ∈ (Call.simulate agents).2, a.traded = true →
      (a.buyer = true → p ≤ a.bid) ∧ (a.buyer = false → -a.bid ≤ p) := by
  by_cases hm : 0 < matchedCount (Call.sortedBuys agents) (Call.sortedSells agents)
  case neg =>
    exfalso
    have hz : matchedCount (Call.sortedBuys agents) (Call.sortedSells agents) = 0 := Nat.eq_zero_of_not_pos hm
    simp only [Call.simulate, hz, Nat.lt_irrefl, if_false] at hp
    exact Option.noConfusion hp
  case pos =>
    have hmarg : -(((Call.sortedSells agents).getD (matchedCount (Call.sortedBuys agents) (Call.sortedSells agents) - 1) default).bid) ≤
        ((Call.sortedBuys agents).getD (matchedCount (Call.sortedBuys agents) (Call.sortedSells agents) - 1) default).bid :=
      matchedCount_spec _ _ (matchedCount (Call.sortedBuys agents) (Call.sortedSells agents) - 1) (by omega)
    have h1 : (Call.simulate agents).1 = some ((((Call.sortedBuys agents).getD (matchedCount (Call.sortedBuys agents) (Call.sortedSells agents) - 1) default).bid - ((Call.sortedSells agents).getD (matchedCount (Call.sortedBuys agents) (Call.sortedSells agents) - 1) default).bid) / 2) := by
      simp only [Call.simulate, if_pos hm]
    have hpv : p = ((((Call.sortedBuys agents).getD (matchedCount (Call.sortedBuys agents) (Call.sortedSells agents) - 1) default).bid - ((Call.sortedSells agents).getD (matchedCount (Call.sortedBuys agents) (Call.sortedSells agents) - 1) default).bid) / 2) := by
      rw [h1] at hp
      exact (Option.some_inj.mp hp).symm
    have h2 : (Call.simulate agents).2 =
        ((Call.sortedBuys agents).take (matchedCount (Call.sortedBuys agents) (Call.sortedSells agents))).map (fun b => b.transact ((((Call.sortedBuys agents).getD (matchedCount (Call.sortedBuys agents) (Call.sortedSells agents) - 1) default).bid - ((Call.sortedSells agents).getD (matchedCount (Call.sortedBuys agents) (Call.sortedSells agents) - 1) default).bid) / 2)) ++ (Call.sortedBuys agents).drop (matchedCount (Call.sortedBuys agents) (Call.sortedSells agents)) ++
          ((Call.sortedSells agents).take (matchedCount (Call.sortedBuys agents) (Call.sortedSells agents))).map (fun s => s.transact ((((Call.sortedBuys agents).getD (matchedCount (Call.sortedBuys agents) (Call.sortedSells agents) - 1) default).bid - ((Call.sortedSells agents).getD (matchedCount (Call.sortedBuys agents) (Call.sortedSells agents) - 1) default).bid) / 2)) ++ (Call.sortedSells agents).drop (matchedCount (Call.sortedBuys agents) (Call.sortedSells agents)) := by
      simp only [Call.simulate, if_pos hm]
    have hBtake : ∀ b ∈ (Call.sortedBuys agents).take (matchedCount (Call.sortedBuys agents) (Call.sortedSells agents)),
        ((Call.sortedBuys agents).getD (matchedCount (Call.sortedBuys agents) (Call.sortedSells agents) - 1) default).bid ≤ b.bid ∧ b.buyer = true := by
      intro b hb
      obtain ⟨i, hi, hbi⟩ := List.mem_take_iff_getElem.mp hb
      have hiM : i < matchedCount (Call.sortedBuys agents) (Call.sortedSells agents) := lt_of_lt_of_le hi inf_le_left
      have hilen : i < (Call.sortedBuys agents).length := lt_of_lt_of_le hi inf_le_right
      have hmlen1 : matchedCount (Call.sortedBuys agents) (Call.sortedSells agents) ≤ (Call.sortedBuys agents).length := matchedCount_le_left _ _
      have hle : ((Call.sortedBuys agents).getD (matchedCount (Call.sortedBuys agents) (Call.sortedSells agents) - 1) default).bid ≤ ((Call.sortedBuys agents).getD i default).bid :=
        sorted_getD_le (sortedBuys_sorted agents) (by omega) (by omega)
      refine ⟨?_, ?_⟩
      · rw [List.getD_eq_getElem _ _ hilen, hbi] at hle
        exact hle
      · exact (mem_sortedBuys (List.mem_of_mem_take hb)).2
    have hStake : ∀ s ∈ (Call.sortedSells agents).take (matchedCount (Call.sortedBuys agents) (Call.sortedSells agents)),
        s.bid ≥ ((Call.sortedSells agents).getD (matchedCount (Call.sortedBuys agents) (Call.sortedSells agents) - 1) default).bid ∧ s.buyer = false := by
      intro s hs
      obtain ⟨i, hi, hsi⟩ := List.mem_take_iff_getElem.mp hs
      have hiM : i < matchedCount (Call.sortedBuys agents) (Call.sortedSells agents) := lt_of_lt_of_le hi inf_le_left
      have hilen : i < (Call.sortedSells agents).length := lt_of_lt_of_le hi inf_le_right
      have hmlen1 : matchedCount (Call.sortedBuys agents) (Call.sortedSells agents) ≤ (Call.sortedSells agents).length := matchedCount_le_right _ _
      have hle : ((Call.sortedSells agents).getD (matchedCount (Call.sortedBuys agents) (Call.sortedSells agents) - 1) default).bid ≤ ((Call.sortedSells agents).getD i default).bid :=
        sorted_getD_le (sortedSells_sorted agents) (by omega) (by omega)
      refine ⟨?_, ?_⟩
      · rw [List.getD_eq_getElem _ _ hilen, hsi] at hle
        exact hle
      · exact (mem_sortedSells (List.mem_of_mem_take hs)).2
    refine ⟨by rw [hpv]; linarith, by rw [hpv]; linarith, ?_⟩
    intro a ha htr
    rw [h2] at ha
    rcases List.mem_append.mp ha with ha | haSd
    rcases List.mem_append.mp ha with ha | haSt
    rcases List.mem_append.mp ha with haBt | haBd
    · obtain ⟨b, hb, rfl⟩ := List.mem_map.mp haBt
      obtain ⟨hble, hbbuy⟩ := hBtake b hb
      constructor
      · intro _
        show p ≤ b.bid
        rw [hpv]
        linarith
      · intro hcontra
        rw [show (b.transact ((((Call.sortedBuys agents).getD (matchedCount (Call.sortedBuys agents) (Call.sortedSells agents) - 1) default).bid - ((Call.sortedSells agents).getD (matchedCount (Call.sortedBuys agents) (Call.sortedSells agents) - 1) default).bid) / 2)).buyer = b.buyer from rfl, hbbuy] at hcontra
        exact Bool.noConfusion hcontra
    · have hmem : a ∈ agents := (mem_sortedBuys (List.mem_of_mem_drop haBd)).1
      rw [h0 a hmem] at htr
      exact Bool.noConfusion htr
    · obtain ⟨s, hs, rfl⟩ := List.mem_map.mp haSt
      obtain ⟨hsge, hsbuy⟩ := hStake s hs
      constructor
      · intro hcontra
        rw [show (s.transact ((((Call.sortedBuys agents).getD (matchedCount (Call.sortedBuys agents) (Call.sortedSells agents) - 1) default).bid - ((Call.sortedSells agents).getD (matchedCount (Call.sortedBuys agents) (Call.sortedSells agents) - 1) default).bid) / 2)).buyer = s.buyer from rfl, hsbuy] at hcontra
        exact Bool.noConfusion hcontra
      · intro _
        show -s.bid ≤ p
        rw [hpv]
        linarith
    · have hmem : a ∈ agents := (mem_sortedSells (List.mem_of_mem_drop haSd)).1
      rw [h0 a hmem] at htr
      exact Bool.noConfusion htr

/-- Witness for C10: a buyer quoting 1 against a seller asking 1/4 clear at
the midpoint 5/8. -/
theorem call_clearing_price_range_witness :
    (∀ a ∈ ([{ Agent.new true "" Style.Standard (0 : ℚ) with bid := 1 }, { Agent.new false "" Style.Standard (0 : ℚ) with bid := -1/4 }] : List (Agent ℚ)), a.traded = false) ∧
    ((Call.simulate ([{ Agent.new true "" Style.Standard (0 : ℚ) with bid := 1 }, { Agent.new false "" Style.Standard (0 : ℚ) with bid := -1/4 }] : List (Agent ℚ))).1 = some (5/8)) ∧
    (-(((Call.sortedSells [{ Agent.new true "" Style.Standard (0 : ℚ) with bid := 1 }, { Agent.new false "" Style.Standard (0 : ℚ) with bid := -1/4 }]).getD (matchedCount (Call.sortedBuys [{ Agent.new true "" Style.Standard (0 : ℚ) with bid := 1 }, { Agent.new false "" Style.Standard (0 : ℚ) with bid := -1/4 }]) (Call.sortedSells [{ Agent.new true "" Style.Standard (0 : ℚ) with bid := 1 }, { Agent.new false "" Style.Standard (0 : ℚ) with bid := -1/4 }]) - 1) default).bid) ≤ (5/8 : ℚ) ∧
    (5/8 : ℚ) ≤ ((Call.sortedBuys [{ Agent.new true "" Style.Standard (0 : ℚ) with bid := 1 }, { Agent.new false "" Style.Standard (0 : ℚ) with bid := -1/4 }]).getD (matchedCount (Call.sortedBuys [{ Agent.new true "" Style.Standard (0 : ℚ) with bid := 1 }, { Agent.new false "" Style.Standard (0 : ℚ) with bid := -1/4 }]) (Call.sortedSells [{ Agent.new true "" Style.Standard (0 : ℚ) with bid := 1 }, { Agent.new false "" Style.Standard (0 : ℚ) with bid := -1/4 }]) - 1) default).bid ∧
    ∀ a ∈ (Call.simulate ([{ Agent.new true "" Style.Standard (0 : ℚ) with bid := 1 }, { Agent.new false "" Style.Standard (0 : ℚ) with bid := -1/4 }] : List (Agent ℚ))).2, a.traded = true →
      (a.buyer = true → (5/8 : ℚ) ≤ a.bid) ∧ (a.buyer = false → -a.bid ≤ (5/8 : ℚ))) :=
  ⟨by decide,
   by norm_num [Call.simulate, Call.sortedBuys, Call.sortedSells, List.insertionSort,
     List.orderedInsert, matchedCount, byBidDesc, Agent.new],
   call_clearing_price_range [{ Agent.new true "" Style.Standard (0 : ℚ) with bid := 1 }, { Agent.new false "" Style.Standard (0 : ℚ) with bid := -1/4 }] (5/8) (by decide)
     (by norm_num [Call.simulate, Call.sortedBuys, Call.sortedSells, List.insertionSort,
       List.orderedInsert, matchedCount, byBidDesc, Agent.new])⟩

/-! ## C8: concrete call market scenario -/

/-- The `truthful` helper of the tests in src/market.rs: a Correct-style agent
with zero shading whose bid is computed by the bidding model from `value`. -/
noncomputable def truthful (buyer : Bool) (value : ℝ) : Agent ℝ :=
  Agent.shade { Agent.new buyer "" Style.Correct 0 with value := value }

/-- C8: two buyers with truthful values 1 and 0.3 and two sellers with
truthful values 0.7 and 0, zero shading, Correct style: the call market clears
at price 0.5; the value-1 buyer and the value-0 seller trade, the value-0.3
buyer and the value-0.7 seller do not.  The returned population is ordered
matched buyers, resting buyers, matched sellers, resting sellers. -/
theorem call_market_scenario :
    (Call.simulate [truthful true 1, truthful false (7/10),
        truthful true (3/10), truthful false 0]).1 = some (1/2) ∧
    ((Call.simulate [truthful true 1, truthful false (7/10),
        truthful true (3/10), truthful false 0]).2).map
        (fun a => (a.value, a.traded)) =
      [((1 : ℝ), true), ((3/10 : ℝ), false), ((0 : ℝ), true), ((7/10 : ℝ), false)] := by
  norm_num [Call.simulate, Call.sortedBuys, Call.sortedSells, List.insertionSort,
    List.orderedInsert, matchedCount, byBidDesc, Agent.new, truthful, Agent.shade,
    Agent.reset, Agent.sign, Agent.transact]

/-! ## C5: CDA output is the mean of per-transaction prices -/

namespace Cda

/-- The loop agrees with its price-recording companion: same output
population, the average is the incremental fold of the recorded prices, and
the transaction count is the number of recorded prices. -/
lemma loop_eq_trace (rest buys sells done : List (Agent α)) (avg : α) (n : ℕ) :
    loop rest buys sells done avg n =
      ((trace rest buys sells done).1,
        avgFold avg n (trace rest buys sells done).2,
        n + (trace rest buys sells done).2.length) := by
  induction rest generalizing buys sells done avg n with
  | nil => simp [loop, trace, avgFold]
  | cons a rest ih =>
    rcases hb : a.buyer with _ | _
    · rcases buys with _ | ⟨b, btail⟩
      · simp only [loop, trace, hb, Bool.false_eq_true, if_false]
        exact ih _ _ _ _ _
      · by_cases hle : -a.bid ≤ b.bid
        · simp only [loop, trace, hb, Bool.false_eq_true, if_false, if_pos hle]
          rw [ih]
          simp only [avgFold, List.length_cons, Prod.mk.injEq]
          exact ⟨trivial, trivial, by omega⟩
        · simp only [loop, trace, hb, Bool.false_eq_true, if_false, if_neg hle]
          exact ih _ _ _ _ _
    · rcases sells with _ | ⟨s, stail⟩
      · simp only [loop, trace, hb, if_true]
        exact ih _ _ _ _ _
      · by_cases hle : -s.bid ≤ a.bid
        · simp only [loop, trace, hb, if_true, if_pos hle]
          rw [ih]
          simp only [avgFold, List.length_cons, Prod.mk.injEq]
          exact ⟨trivial, trivial, by omega⟩
        · simp only [loop, trace, hb, if_true, if_neg hle]
          exact ih _ _ _ _ _

/-- The incremental average `avg += (p - avg) / count` computes the exact
arithmetic mean (in exact field arithmetic). -/
lemma avgFold_eq (ps : List α) (avg : α) (n : ℕ) (h : 0 < n + ps.length) :
    avgFold avg n ps = ((n : α) * avg + ps.sum) / ((n : α) + ps.length) := by
  induction ps generalizing avg n with
  | nil =>
    have hn0 : 0 < n := by simpa using h
    have hn : (0 : α) < (n : α) := by exact_mod_cast hn0
    simp only [avgFold, List.sum_nil, List.length_nil, Nat.cast_zero, add_zero]
    field_simp
  | cons p ps ih =>
    have h1 : (0 : α) < (n : α) + 1 := by positivity
    have h2 : (0 : α) < (n : α) + 1 + (ps.length : α) := by positivity
    have h3 : (0 : α) < (n : α) + ((ps.length : α) + 1) := by positivity
    rw [avgFold, ih _ _ (by omega)]
    simp only [List.sum_cons, List.length_cons]
    push_cast
    rw [div_eq_div_iff h2.ne' h3.ne']
    field_simp
    ring

end Cda

/-- C5: for every population and every arrival order, the CDA returns `None`
exactly when its price-recording trace is empty (zero transactions), and
otherwise the arithmetic mean of the per-transaction prices; the returned
population is exactly the trace's population, in which each matched agent was
transacted at its own transaction's price (the resting counter-order's quoted
side, see `Cda.trace`). -/
theorem cda_returns_mean_of_transaction_prices
    (shuffle : List (Agent α) → List (Agent α)) (agents : List (Agent α)) :
    Cda.simulate shuffle agents =
      (if (Cda.trace (shuffle agents) [] [] []).2 = [] then none
       else some ((Cda.trace (shuffle agents) [] [] []).2.sum /
         (((Cda.trace (shuffle agents) [] [] []).2.length : ℕ) : α)),
       (Cda.trace (shuffle agents) [] [] []).1) := by
  simp only [Cda.simulate, Cda.loop_eq_trace]
  rcases h : (Cda.trace (shuffle agents) [] [] []).2 with _ | ⟨p, ps⟩
  · simp [Cda.avgFold]
  · have hlen : 0 < 0 + (p :: ps).length := by simp
    have := Cda.avgFold_eq (p :: ps) (0 : α) 0 hlen
    simp only [Nat.cast_zero, zero_mul, zero_add] at this
    simp [this]

/-! ## C1: welfare conservation -/

lemma sum_map_add {β : Type} (l : List β) (f g : β → α) :
    (l.map fun x => f x + g x).sum = (l.map f).sum + (l.map g).sum := by
  induction l with
  | nil => simp
  | cons x l ih => simp only [List.map_cons, List.sum_cons, ih]; ring

lemma sum_map_sub {β : Type} (l : List β) (f g : β → α) :
    (l.map fun x => f x - g x).sum = (l.map f).sum - (l.map g).sum := by
  induction l with
  | nil => simp
  | cons x l ih => simp only [List.map_cons, List.sum_cons, ih]; ring

lemma sum_map_congr {β : Type} {l : List β} {f g : β → α}
    (h : ∀ x ∈ l, f x = g x) : (l.map f).sum = (l.map g).sum := by
  rw [List.map_congr_left h]

lemma sum_map_eq_length_mul {β : Type} (l : List β) (f : β → α) (c : α)
    (h : ∀ x ∈ l, f x = c) : (l.map f).sum = l.length * c := by
  induction l with
  | nil => simp
  | cons x l ih =>
    simp only [List.map_cons, List.sum_cons, List.length_cons]
    rw [h x (List.mem_cons_self x l), ih (fun y hy => h y (List.mem_cons_of_mem _ hy))]
    push_cast
    ring

/-- The agent fields that clearing cannot change: role, private value, and
benchmark-trade flag.  Both mechanisms only permute agents and apply
`transact`, which preserves this key. -/
def ceKey (a : Agent α) : Bool × α × Bool := (a.buyer, a.value, a.ce_traded)

lemma ceKey_transact (a : Agent α) (p : α) : ceKey (a.transact p) = ceKey a := rfl

lemma ceKey_shade (a : Agent ℝ) : ceKey a.shade = ceKey a := rfl

/-- The benchmark-side summands factor through `ceKey`. -/
def keyCeSur : Bool × α × Bool → α :=
  fun k => if k.2.2 then (if k.1 then k.2.1 else -k.2.1) else 0

def keyCeSign : Bool × α × Bool → α :=
  fun k => if k.2.2 then (if k.1 then 1 else -1) else 0

lemma ceSur_eq_key (a : Agent α) :
    (if a.ce_traded then a.sign * a.value else 0) = keyCeSur (ceKey a) := by
  cases hb : a.buyer <;> cases hc : a.ce_traded <;>
    simp [keyCeSur, ceKey, Agent.sign, hb, hc]

lemma ceSign_eq_key (a : Agent α) :
    (if a.ce_traded then a.sign else 0) = keyCeSign (ceKey a) := by
  cases hb : a.buyer <;> cases hc : a.ce_traded <;>
    simp [keyCeSign, ceKey, Agent.sign, hb, hc]

lemma sum_map_comp_key {l1 l2 : List (Agent α)}
    (h : (l1.map ceKey).Perm (l2.map ceKey)) (g : Bool × α × Bool → α) :
    (l1.map fun a => g (ceKey a)).sum = (l2.map fun a => g (ceKey a)).sum := by
  have he : ∀ l : List (Agent α), (l.map fun a => g (ceKey a)) = (l.map ceKey).map g := by
    intro l
    rw [List.map_map]
    rfl
  rw [he l1, he l2]
  exact (h.map g).sum_eq

lemma sum_ceSur_of_key_perm {l1 l2 : List (Agent α)}
    (h : (l1.map ceKey).Perm (l2.map ceKey)) :
    (l1.map fun a => if a.ce_traded then a.sign * a.value else 0).sum =
      (l2.map fun a => if a.ce_traded then a.sign * a.value else 0).sum := by
  rw [sum_map_congr (fun x _ => ceSur_eq_key x),
    sum_map_congr (fun x _ => ceSur_eq_key x)]
  exact sum_map_comp_key h keyCeSur

lemma sum_ceSign_of_key_perm {l1 l2 : List (Agent α)}
    (h : (l1.map ceKey).Perm (l2.map ceKey)) :
    (l1.map fun a => if a.ce_traded then a.sign else 0).sum =
      (l2.map fun a => if a.ce_traded then a.sign else 0).sum := by
  rw [sum_map_congr (fun x _ => ceSign_eq_key x),
    sum_map_congr (fun x _ => ceSign_eq_key x)]
  exact sum_map_comp_key h keyCeSign

lemma map_ceKey_map_transact (l : List (Agent α)) (p : α) :
    ((l.map (fun x => x.transact p)).map ceKey) = l.map ceKey := by
  rw [List.map_map]
  exact List.map_congr_left (fun x _ => rfl)

/-- The call market only permutes the population's `ceKey`s. -/
lemma call_key_perm (agents : List (Agent α)) :
    (((Call.simulate agents).2).map ceKey).Perm (agents.map ceKey) := by
  have hsplit : ∀ (l : List (Agent α)) (m : ℕ),
      (l.take m).map ceKey ++ (l.drop m).map ceKey = l.map ceKey := by
    intro l m
    rw [← List.map_append, List.take_append_drop]
  have hperm : ((Call.sortedBuys agents ++ Call.sortedSells agents).map ceKey).Perm
      (agents.map ceKey) := by
    refine List.Perm.map ceKey ?_
    refine List.Perm.trans ?_ (List.filter_append_perm (fun a => a.buyer) agents)
    exact (List.perm_insertionSort _ _).append (List.perm_insertionSort _ _)
  by_cases hm : 0 < matchedCount (Call.sortedBuys agents) (Call.sortedSells agents)
  · simp only [Call.simulate, if_pos hm]
    simp only [List.map_append, map_ceKey_map_transact]
    rw [List.append_assoc, hsplit, hsplit, ← List.map_append]
    exact hperm
  · simp only [Call.simulate, if_neg hm]
    exact List.Perm.refl _

/-- The multiset of clearing-invariant keys of a population. -/
def msKeys (l : List (Agent α)) : Multiset (Bool × α × Bool) :=
  (l.map ceKey : List (Bool × α × Bool))

lemma msKeys_nil : msKeys ([] : List (Agent α)) = 0 := rfl

lemma msKeys_append (l1 l2 : List (Agent α)) :
    msKeys (l1 ++ l2) = msKeys l1 + msKeys l2 := by
  simp [msKeys, ← Multiset.coe_add]

lemma msKeys_cons (a : Agent α) (l : List (Agent α)) :
    msKeys (a :: l) = {ceKey a} + msKeys l := by
  simp [msKeys, ← Multiset.cons_coe, ← Multiset.singleton_add]

lemma msKeys_orderedInsert (a : Agent α) (l : List (Agent α)) :
    msKeys (List.orderedInsert byBidDesc a l) = {ceKey a} + msKeys l := by
  have h : (List.orderedInsert byBidDesc a l).Perm (a :: l) :=
    List.perm_orderedInsert _ _ _
  have := Multiset.coe_eq_coe.mpr (h.map ceKey)
  rw [msKeys, this]
  simp [msKeys, ← Multiset.cons_coe, ← Multiset.singleton_add]

lemma msKeys_perm {l1 l2 : List (Agent α)} (h : msKeys l1 = msKeys l2) :
    (l1.map ceKey).Perm (l2.map ceKey) :=
  Multiset.coe_eq_coe.mp h

/-- The CDA loop only permutes the population's `ceKey`s. -/
lemma cda_loop_msKeys (rest buys sells done : List (Agent α)) (avg : α) (n : ℕ) :
    msKeys (Cda.loop rest buys sells done avg n).1 =
      msKeys done + msKeys buys + msKeys sells + msKeys rest := by
  induction rest generalizing buys sells done avg n with
  | nil =>
    simp only [Cda.loop, msKeys_append, msKeys_nil]
    abel
  | cons a rest ih =>
    rcases hb : a.buyer with _ | _
    · rcases buys with _ | ⟨b, btail⟩
      · simp only [Cda.loop, hb, Bool.false_eq_true, if_false]
        rw [ih]
        simp only [msKeys_orderedInsert, msKeys_cons, msKeys_append, msKeys_nil]
        abel
      · by_cases hle : -a.bid ≤ b.bid
        · simp only [Cda.loop, hb, Bool.false_eq_true, if_false, if_pos hle]
          rw [ih]
          simp only [msKeys_append, msKeys_cons, msKeys_nil, ceKey_transact]
          abel
        · simp only [Cda.loop, hb, Bool.false_eq_true, if_false, if_neg hle]
          rw [ih]
          simp only [msKeys_orderedInsert, msKeys_cons, msKeys_append, msKeys_nil]
          abel
    · rcases sells with _ | ⟨s, stail⟩
      · simp only [Cda.loop, hb, if_true]
        rw [ih]
        simp only [msKeys_orderedInsert, msKeys_cons, msKeys_append, msKeys_nil]
        abel
      · by_cases hle : -s.bid ≤ a.bid
        · simp only [Cda.loop, hb, if_true, if_pos hle]
          rw [ih]
          simp only [msKeys_append, msKeys_cons, msKeys_nil, ceKey_transact]
          abel
        · simp only [Cda.loop, hb, if_true, if_neg hle]
          rw [ih]
          simp only [msKeys_orderedInsert, msKeys_cons, msKeys_append, msKeys_nil]
          abel

/-- The CDA only permutes the population's `ceKey`s. -/
lemma cda_key_perm (shuffle : List (Agent α) → List (Agent α))
    (agents : List (Agent α)) (hσ : (shuffle agents).Perm agents) :
    (((Cda.simulate shuffle agents).2).map ceKey).Perm (agents.map ceKey) := by
  have h1 : msKeys (Cda.simulate shuffle agents).2 = msKeys (shuffle agents) := by
    simp only [Cda.simulate]
    rw [cda_loop_msKeys]
    simp [msKeys_nil]
  exact (msKeys_perm h1).trans (hσ.map ceKey)

lemma sum_map_neg {β : Type} (l : List β) (f : β → α) :
    (l.map fun x => -(f x)).sum = -((l.map f).sum) := by
  induction l with
  | nil => simp
  | cons x l ih => simp only [List.map_cons, List.sum_cons, ih]; ring

/-- Sums over a segment of transacted buyers. -/
lemma seg_buyers (l : List (Agent α)) (p : α) (hb : ∀ x ∈ l, x.buyer = true) :
    ((l.map (fun b => b.transact p)).map (fun a => a.utility)).sum =
      (l.map (fun a => a.value)).sum - l.length * p ∧
    ((l.map (fun b => b.transact p)).map
        (fun a => if a.traded then a.sign * a.value else 0)).sum =
      (l.map (fun a => a.value)).sum ∧
    ((l.map (fun b => b.transact p)).map
        (fun a => if a.traded then a.sign else 0)).sum = l.length := by
  refine ⟨?_, ?_, ?_⟩
  · have h1 : ((l.map (fun b => b.transact p)).map (fun a => a.utility)).sum
        = (l.map (fun x => x.value + (-p))).sum := by
      rw [List.map_map]
      refine sum_map_congr ?_
      intro x hx
      simp [Function.comp, Agent.transact, Agent.sign, hb x hx]
      ring
    rw [h1, sum_map_add, sum_map_eq_length_mul l _ (-p) (fun x _ => rfl)]
    ring
  · rw [List.map_map]
    refine sum_map_congr ?_
    intro x hx
    simp [Function.comp, Agent.transact, Agent.sign, hb x hx]
  · rw [List.map_map]
    have h1 : ∀ x ∈ l, ((fun a => if a.traded = true then a.sign else 0) ∘
        fun b => b.transact p) x = (1 : α) := by
      intro x hx
      simp [Function.comp, Agent.transact, Agent.sign, hb x hx]
    rw [sum_map_eq_length_mul _ _ (1 : α) h1, mul_one]

/-- Sums over a segment of transacted sellers. -/
lemma seg_sellers (l : List (Agent α)) (p : α) (hs : ∀ x ∈ l, x.buyer = false) :
    ((l.map (fun b => b.transact p)).map (fun a => a.utility)).sum =
      l.length * p - (l.map (fun a => a.value)).sum ∧
    ((l.map (fun b => b.transact p)).map
        (fun a => if a.traded then a.sign * a.value else 0)).sum =
      -((l.map (fun a => a.value)).sum) ∧
    ((l.map (fun b => b.transact p)).map
        (fun a => if a.traded then a.sign else 0)).sum = -(l.length : α) := by
  refine ⟨?_, ?_, ?_⟩
  · have h1 : ((l.map (fun b => b.transact p)).map (fun a => a.utility)).sum
        = (l.map (fun x => -(x.value) + p)).sum := by
      rw [List.map_map]
      refine sum_map_congr ?_
      intro x hx
      simp [Function.comp, Agent.transact, Agent.sign, hs x hx]
      ring
    rw [h1, sum_map_add, sum_map_neg, sum_map_eq_length_mul l _ p (fun x _ => rfl)]
    ring
  · have h1 : ((l.map (fun b => b.transact p)).map
        (fun a => if a.traded then a.sign * a.value else 0)).sum
        = (l.map (fun x => -(x.value))).sum := by
      rw [List.map_map]
      refine sum_map_congr ?_
      intro x hx
      simp [Function.comp, Agent.transact, Agent.sign, hs x hx]
    rw [h1]
    exact sum_map_neg l _
  · rw [List.map_map]
    have h1 : ∀ x ∈ l, ((fun a => if a.traded = true then a.sign else 0) ∘
        fun b => b.transact p) x = (-1 : α) := by
      intro x hx
      simp [Function.comp, Agent.transact, Agent.sign, hs x hx]
    rw [sum_map_eq_length_mul _ _ (-1 : α) h1]
    ring

/-- Sums over a segment of untouched agents. -/
lemma seg_untouched (l : List (Agent α))
    (h : ∀ x ∈ l, x.utility = 0 ∧ x.traded = false) :
    (l.map (fun a => a.utility)).sum = 0 ∧
    (l.map (fun a => if a.traded then a.sign * a.value else 0)).sum = 0 ∧
    (l.map (fun a => if a.traded then a.sign else 0)).sum = 0 := by
  refine ⟨?_, ?_, ?_⟩
  · rw [sum_map_eq_length_mul _ _ 0 (fun x hx => (h x hx).1), mul_zero]
  · rw [sum_map_eq_length_mul _ _ 0 (fun x hx => by simp [(h x hx).2]), mul_zero]
  · rw [sum_map_eq_length_mul _ _ 0 (fun x hx => by simp [(h x hx).2]), mul_zero]

/-- After the call market, total utility equals the signed value of the traded
agents (the uniform price cancels between the equally many matched buyers and
sellers), and the traded agents are sign-balanced. -/
lemma call_sum_lemmas (agents : List (Agent α))
    (h0 : ∀ a ∈ agents, a.utility = 0 ∧ a.traded = false) :
    (((Call.simulate agents).2).map (fun a => a.utility)).sum =
      (((Call.simulate agents).2).map
        (fun a => if a.traded then a.sign * a.value else 0)).sum ∧
    (((Call.simulate agents).2).map
        (fun a => if a.traded then a.sign else 0)).sum = 0 := by
  by_cases hm : 0 < matchedCount (Call.sortedBuys agents) (Call.sortedSells agents)
  case neg =>
    simp only [Call.simulate, if_neg hm]
    obtain ⟨u0, s0, g0⟩ := seg_untouched agents h0
    exact ⟨by rw [u0, s0], g0⟩
  case pos =>
    simp only [Call.simulate, if_pos hm]
    have htakeB : ∀ x ∈ (Call.sortedBuys agents).take (matchedCount (Call.sortedBuys agents) (Call.sortedSells agents)), x.buyer = true :=
      fun x hx => (mem_sortedBuys (List.mem_of_mem_take hx)).2
    have htakeS : ∀ x ∈ (Call.sortedSells agents).take (matchedCount (Call.sortedBuys agents) (Call.sortedSells agents)), x.buyer = false :=
      fun x hx => (mem_sortedSells (List.mem_of_mem_take hx)).2
    have hdropB : ∀ x ∈ (Call.sortedBuys agents).drop (matchedCount (Call.sortedBuys agents) (Call.sortedSells agents)),
        x.utility = 0 ∧ x.traded = false :=
      fun x hx => h0 x (mem_sortedBuys (List.mem_of_mem_drop hx)).1
    have hdropS : ∀ x ∈ (Call.sortedSells agents).drop (matchedCount (Call.sortedBuys agents) (Call.sortedSells agents)),
        x.utility = 0 ∧ x.traded = false :=
      fun x hx => h0 x (mem_sortedSells (List.mem_of_mem_drop hx)).1
    obtain ⟨bu, bs, bg⟩ := seg_buyers ((Call.sortedBuys agents).take (matchedCount (Call.sortedBuys agents) (Call.sortedSells agents))) ((((Call.sortedBuys agents).getD (matchedCount (Call.sortedBuys agents) (Call.sortedSells agents) - 1) default).bid - ((Call.sortedSells agents).getD (matchedCount (Call.sortedBuys agents) (Call.sortedSells agents) - 1) default).bid) / 2) htakeB
    obtain ⟨su, ss, sg⟩ := seg_sellers ((Call.sortedSells agents).take (matchedCount (Call.sortedBuys agents) (Call.sortedSells agents))) ((((Call.sortedBuys agents).getD (matchedCount (Call.sortedBuys agents) (Call.sortedSells agents) - 1) default).bid - ((Call.sortedSells agents).getD (matchedCount (Call.sortedBuys agents) (Call.sortedSells agents) - 1) default).bid) / 2) htakeS
    obtain ⟨du, ds, dg⟩ := seg_untouched _ hdropB
    obtain ⟨eu, es, eg⟩ := seg_untouched _ hdropS
    have hlenB : (((Call.sortedBuys agents).take (matchedCount (Call.sortedBuys agents) (Call.sortedSells agents))).length : α) = ((matchedCount (Call.sortedBuys agents) (Call.sortedSells agents) : ℕ) : α) := by
      rw [List.length_take]
      congr 1
      have := matchedCount_le_left (Call.sortedBuys agents) (Call.sortedSells agents)
      omega
    have hlenS : (((Call.sortedSells agents).take (matchedCount (Call.sortedBuys agents) (Call.sortedSells agents))).length : α) = ((matchedCount (Call.sortedBuys agents) (Call.sortedSells agents) : ℕ) : α) := by
      rw [List.length_take]
      congr 1
      have := matchedCount_le_right (Call.sortedBuys agents) (Call.sortedSells agents)
      omega
    constructor
    · simp only [List.map_append, List.sum_append]
      rw [bu, su, du, eu, bs, ss, ds, es, hlenB, hlenS]
      ring
    · simp only [List.map_append, List.sum_append]
      rw [bg, sg, dg, eg, hlenB, hlenS]
      ring

/-- After the CDA, total utility equals the signed value of the traded agents
(each transaction's price cancels between its buyer and its seller), and the
traded agents are sign-balanced. -/
lemma cda_loop_sums (rest buys sells done : List (Agent α)) (avg : α) (n : ℕ)
    (Hb : ∀ x ∈ buys, x.buyer = true ∧ x.traded = false ∧ x.utility = 0)
    (Hs : ∀ x ∈ sells, x.buyer = false ∧ x.traded = false ∧ x.utility = 0)
    (Hr : ∀ x ∈ rest, x.traded = false ∧ x.utility = 0)
    (Hd1 : (done.map (fun a => a.utility)).sum =
      (done.map (fun a => if a.traded then a.sign * a.value else 0)).sum)
    (Hd2 : (done.map (fun a => if a.traded then a.sign else 0)).sum = 0) :
    (((Cda.loop rest buys sells done avg n).1).map (fun a => a.utility)).sum =
      (((Cda.loop rest buys sells done avg n).1).map
        (fun a => if a.traded then a.sign * a.value else 0)).sum ∧
    (((Cda.loop rest buys sells done avg n).1).map
        (fun a => if a.traded then a.sign else 0)).sum = 0 := by
  induction rest generalizing buys sells done avg n with
  | nil =>
    simp only [Cda.loop]
    obtain ⟨bu, bs, bg⟩ := seg_untouched buys
      (fun x hx => ⟨(Hb x hx).2.2, (Hb x hx).2.1⟩)
    obtain ⟨su, ss, sg⟩ := seg_untouched sells
      (fun x hx => ⟨(Hs x hx).2.2, (Hs x hx).2.1⟩)
    constructor
    · simp only [List.map_append, List.sum_append]
      rw [bu, su, bs, ss, Hd1]
    · simp only [List.map_append, List.sum_append]
      rw [bg, sg, Hd2]
      ring
  | cons a rest ih =>
    have har : a.traded = false ∧ a.utility = 0 := Hr a (List.mem_cons_self a rest)
    have hrt : ∀ x ∈ rest, x.traded = false ∧ x.utility = 0 :=
      fun x hx => Hr x (List.mem_cons_of_mem _ hx)
    have hinsB : a.buyer = true →
        ∀ x ∈ List.orderedInsert byBidDesc a buys,
          x.buyer = true ∧ x.traded = false ∧ x.utility = 0 := by
      intro hb x hx
      rcases Cda.mem_orderedInsert hx with h | h
      · rw [h]; exact ⟨hb, har.1, har.2⟩
      · exact Hb x h
    have hinsS : a.buyer = false →
        ∀ x ∈ List.orderedInsert byBidDesc a sells,
          x.buyer = false ∧ x.traded = false ∧ x.utility = 0 := by
      intro hb x hx
      rcases Cda.mem_orderedInsert hx with h | h
      · rw [h]; exact ⟨hb, har.1, har.2⟩
      · exact Hs x h
    rcases hb : a.buyer with _ | _
    · rcases buys with _ | ⟨b, btail⟩
      · simp only [Cda.loop, hb, Bool.false_eq_true, if_false]
        exact ih _ _ _ _ _ Hb (hinsS hb) hrt Hd1 Hd2
      · by_cases hle : -a.bid ≤ b.bid
        · simp only [Cda.loop, hb, Bool.false_eq_true, if_false, if_pos hle]
          have hbb := Hb b (List.mem_cons_self b btail)
          refine ih _ _ _ _ _ (fun x hx => Hb x (List.mem_cons_of_mem _ hx)) Hs hrt ?_ ?_
          · simp only [List.map_append, List.sum_append, List.map_cons, List.sum_cons,
              List.map_nil, List.sum_nil, Hd1]
            simp [Agent.transact, Agent.sign, hb, hbb.1]
            ring
          · simp only [List.map_append, List.sum_append, List.map_cons, List.sum_cons,
              List.map_nil, List.sum_nil, Hd2]
            simp [Agent.transact, Agent.sign, hb, hbb.1]
        · simp only [Cda.loop, hb, Bool.false_eq_true, if_false, if_neg hle]
          exact ih _ _ _ _ _ Hb (hinsS hb) hrt Hd1 Hd2
    · rcases sells with _ | ⟨s, stail⟩
      · simp only [Cda.loop, hb, if_true]
        exact ih _ _ _ _ _ (hinsB hb) Hs hrt Hd1 Hd2
      · by_cases hle : -s.bid ≤ a.bid
        · simp only [Cda.loop, hb, if_true, if_pos hle]
          have hss := Hs s (List.mem_cons_self s stail)
          refine ih _ _ _ _ _ Hb (fun x hx => Hs x (List.mem_cons_of_mem _ hx)) hrt ?_ ?_
          · simp only [List.map_append, List.sum_append, List.map_cons, List.sum_cons,
              List.map_nil, List.sum_nil, Hd1]
            simp [Agent.transact, Agent.sign, hb, hss.1]
            ring
          · simp only [List.map_append, List.sum_append, List.map_cons, List.sum_cons,
              List.map_nil, List.sum_nil, Hd2]
            simp [Agent.transact, Agent.sign, hb, hss.1]
        · simp only [Cda.loop, hb, if_true, if_neg hle]
          exact ih _ _ _ _ _ (hinsB hb) Hs hrt Hd1 Hd2

/-- CDA version of `call_sum_lemmas`. -/
lemma cda_sum_lemmas (shuffle : List (Agent α) → List (Agent α))
    (agents : List (Agent α)) (hσ : (shuffle agents).Perm agents)
    (h0 : ∀ a ∈ agents, a.utility = 0 ∧ a.traded = false) :
    (((Cda.simulate shuffle agents).2).map (fun a => a.utility)).sum =
      (((Cda.simulate shuffle agents).2).map
        (fun a => if a.traded then a.sign * a.value else 0)).sum ∧
    (((Cda.simulate shuffle agents).2).map
        (fun a => if a.traded then a.sign else 0)).sum = 0 := by
  have hr : ∀ x ∈ shuffle agents, x.traded = false ∧ x.utility = 0 :=
    fun x hx => ⟨(h0 x (hσ.mem_iff.mp hx)).2, (h0 x (hσ.mem_iff.mp hx)).1⟩
  have := cda_loop_sums (α := α) (shuffle agents) [] [] [] 0 0
    (by intro x hx; cases hx) (by intro x hx; cases hx) hr (by simp) (by simp)
  simpa [Cda.simulate] using this

/-- The per-agent decomposition identity: grouping each agent by its
(traded, ce_traded) flags, realized plus intramarginal plus extramarginal
surplus equals benchmark surplus whenever both trade sets are sign-balanced. -/
lemma decomposition_identity (out : List (Agent α)) (p : α)
    (hbal : (out.map (fun a => if a.traded then a.sign else 0)).sum = 0)
    (hcebal : (out.map (fun a => if a.ce_traded then a.sign else 0)).sum = 0) :
    (out.map (fun a => if a.ce_traded then a.sign * a.value else 0)).sum =
      (out.map (fun a => if a.traded then a.sign * a.value else 0)).sum +
      (out.map (fun a =>
        if !a.traded && a.ce_traded then a.sign * (a.value - p) else 0)).sum +
      (out.map (fun a =>
        if a.traded && !a.ce_traded then a.sign * (p - a.value) else 0)).sum := by
  have hpt : ∀ a : Agent α,
      (if a.traded then a.sign * a.value else 0) +
        (if !a.traded && a.ce_traded then a.sign * (a.value - p) else 0) +
        (if a.traded && !a.ce_traded then a.sign * (p - a.value) else 0) =
      (if a.ce_traded then a.sign * a.value else 0) +
        p * ((if a.traded then a.sign else 0) - (if a.ce_traded then a.sign else 0)) := by
    intro a
    cases ht : a.traded <;> cases hcc : a.ce_traded <;> simp [ht, hcc] <;> ring
  rw [← sum_map_add, ← sum_map_add, sum_map_congr (fun a _ => hpt a), sum_map_add,
    List.sum_map_mul_left, sum_map_sub, hbal, hcebal]
  ring

/-- Abstract welfare-conservation core: if the benchmark clearing's sums are
characterised on `cleared2`, the `ce_traded` flags are copied from its
`traded` flags, and the actual mechanism's output `out` permutes those keys
while satisfying the two sum lemmas, then benchmark surplus decomposes. -/
lemma welfare_core (cleared2 out : List (Agent ℝ)) (p : ℝ)
    (hb1 : (cleared2.map (fun a => a.utility)).sum =
      (cleared2.map (fun a => if a.traded then a.sign * a.value else 0)).sum)
    (hb2 : (cleared2.map (fun a => if a.traded then a.sign else 0)).sum = 0)
    (hkey : (out.map ceKey).Perm
      ((cleared2.map (fun a => { a with ce_traded := a.traded })).map ceKey))
    (hsum : (out.map (fun a => a.utility)).sum =
      (out.map (fun a => if a.traded then a.sign * a.value else 0)).sum)
    (hbal : (out.map (fun a => if a.traded then a.sign else 0)).sum = 0) :
    ((cleared2.map (fun a => { a with ce_traded := a.traded })).map
        (fun a => a.utility)).sum =
      (out.map (fun a => a.utility)).sum +
      (out.map (fun a =>
        if !a.traded && a.ce_traded then a.sign * (a.value - p) else 0)).sum +
      (out.map (fun a =>
        if a.traded && !a.ce_traded then a.sign * (p - a.value) else 0)).sum := by
  have e1 : ((cleared2.map (fun a => { a with ce_traded := a.traded })).map
      (fun a => a.utility)).sum = (cleared2.map (fun a => a.utility)).sum := by
    rw [List.map_map]
    exact sum_map_congr (fun x _ => rfl)
  have e2 : ((cleared2.map (fun a => { a with ce_traded := a.traded })).map
      (fun a => if a.ce_traded then a.sign * a.value else 0)).sum =
      (cleared2.map (fun a => if a.traded then a.sign * a.value else 0)).sum := by
    rw [List.map_map]
    exact sum_map_congr (fun x _ => rfl)
  have e3 : ((cleared2.map (fun a => { a with ce_traded := a.traded })).map
      (fun a => if a.ce_traded then a.sign else 0)).sum = 0 := by
    rw [List.map_map]
    refine Eq.trans (sum_map_congr
      (g := fun a : Agent ℝ => if a.traded then a.sign else 0) ?_) hb2
    intro x hx
    rfl
  have f2 : (out.map (fun a => if a.ce_traded then a.sign * a.value else 0)).sum =
      ((cleared2.map (fun a => { a with ce_traded := a.traded })).map
        (fun a => if a.ce_traded then a.sign * a.value else 0)).sum :=
    sum_ceSur_of_key_perm hkey
  have f3 : (out.map (fun a => if a.ce_traded then a.sign else 0)).sum = 0 := by
    rw [sum_ceSign_of_key_perm hkey, e3]
  rw [e1, hb1, ← e2, ← f2, hsum]
  exact decomposition_identity out p hbal f3

/-- C1: welfare conservation.  For every agent population, every draw of
values, every CDA arrival order and either clearing mechanism, the features of
a simulated round satisfy `ce_surplus = surplus + im_surplus + em_surplus`
exactly (in the real-arithmetic model), hence in particular within the 1e-6
tolerance used by the code's own test. -/
theorem run_sim_welfare_conservation (agents : List (Agent ℝ)) (values : List ℝ)
    (shuffle : List (Agent ℝ) → List (Agent ℝ)) (mech : Mech)
    (hσ : (shuffle (shadedPop agents values)).Perm (shadedPop agents values)) :
    ((run_sim agents values shuffle mech).1).ce_surplus =
      ((run_sim agents values shuffle mech).1).surplus +
        ((run_sim agents values shuffle mech).1).im_surplus +
        ((run_sim agents values shuffle mech).1).em_surplus ∧
    |((run_sim agents values shuffle mech).1).ce_surplus -
        (((run_sim agents values shuffle mech).1).surplus +
          ((run_sim agents values shuffle mech).1).im_surplus +
          ((run_sim agents values shuffle mech).1).em_surplus)| < 1 / 1000000 := by
  have h0s : ∀ a ∈ resampleAll agents values, a.utility = 0 ∧ a.traded = false := by
    intro a ha
    simp only [resampleAll, List.mem_map] at ha
    obtain ⟨x, _, rfl⟩ := ha
    exact ⟨rfl, rfl⟩
  have main : ((run_sim agents values shuffle mech).1).ce_surplus =
      ((run_sim agents values shuffle mech).1).surplus +
        ((run_sim agents values shuffle mech).1).im_surplus +
        ((run_sim agents values shuffle mech).1).em_surplus := by
    rcases hc : Call.simulate (resampleAll agents values) with ⟨cp, cleared2⟩
    rcases cp with _ | p
    · simp only [run_sim, hc]
      ring
    · have hbs := call_sum_lemmas (resampleAll agents values) h0s
      rw [hc] at hbs
      have hshdef : shadedPop agents values =
          (cleared2.map (fun a => { a with ce_traded := a.traded })).map Agent.shade := by
        rw [shadedPop, hc]
      have hsh0 : ∀ x ∈ (cleared2.map
          (fun a => { a with ce_traded := a.traded })).map Agent.shade,
          x.utility = 0 ∧ x.traded = false := by
        intro x hx
        obtain ⟨y, _, rfl⟩ := List.mem_map.mp hx
        exact ⟨rfl, rfl⟩
      have hkeyS : (((cleared2.map (fun a => { a with ce_traded := a.traded })).map
          Agent.shade).map ceKey) =
          ((cleared2.map (fun a => { a with ce_traded := a.traded })).map ceKey) := by
        rw [List.map_map]
        exact List.map_congr_left (fun x _ => rfl)
      cases mech with
      | call =>
        have houts := call_sum_lemmas ((cleared2.map
          (fun a => { a with ce_traded := a.traded })).map Agent.shade) hsh0
        have hkey : (((Call.simulate ((cleared2.map
            (fun a => { a with ce_traded := a.traded })).map Agent.shade)).2).map
              ceKey).Perm
            ((cleared2.map (fun a => { a with ce_traded := a.traded })).map ceKey) :=
          (call_key_perm _).trans (hkeyS ▸ List.Perm.refl _)
        simp only [run_sim, hc]
        exact welfare_core cleared2 _ p hbs.1 hbs.2 hkey houts.1 houts.2
      | cda =>
        rw [hshdef] at hσ
        have houts := cda_sum_lemmas shuffle ((cleared2.map
          (fun a => { a with ce_traded := a.traded })).map Agent.shade) hσ hsh0
        have hkey : (((Cda.simulate shuffle ((cleared2.map
            (fun a => { a with ce_traded := a.traded })).map Agent.shade)).2).map
              ceKey).Perm
            ((cleared2.map (fun a => { a with ce_traded := a.traded })).map ceKey) :=
          (cda_key_perm shuffle _ hσ).trans (hkeyS ▸ List.Perm.refl _)
        simp only [run_sim, hc]
        exact welfare_core cleared2 _ p hbs.1 hbs.2 hkey houts.1 houts.2
  refine ⟨main, ?_⟩
  rw [main]
  norm_num

/-- Witness for C1: a one-buyer population run through the CDA with the
identity arrival order. -/
theorem run_sim_welfare_conservation_witness :
    ((id (shadedPop [Agent.new true "" Style.Standard 0] [1/2])).Perm
      (shadedPop [Agent.new true "" Style.Standard 0] [1/2])) ∧
    (((run_sim [Agent.new true "" Style.Standard 0] [1/2] id Mech.cda).1).ce_surplus =
      ((run_sim [Agent.new true "" Style.Standard 0] [1/2] id Mech.cda).1).surplus +
        ((run_sim [Agent.new true "" Style.Standard 0] [1/2] id Mech.cda).1).im_surplus +
        ((run_sim [Agent.new true "" Style.Standard 0] [1/2] id Mech.cda).1).em_surplus ∧
    |((run_sim [Agent.new true "" Style.Standard 0] [1/2] id Mech.cda).1).ce_surplus -
        (((run_sim [Agent.new true "" Style.Standard 0] [1/2] id Mech.cda).1).surplus +
          ((run_sim [Agent.new true "" Style.Standard 0] [1/2] id Mech.cda).1).im_surplus +
          ((run_sim [Agent.new true "" Style.Standard 0] [1/2] id Mech.cda).1).em_surplus)| <
      1 / 1000000) :=
  ⟨List.Perm.refl _,
    run_sim_welfare_conservation [Agent.new true "" Style.Standard 0] [1/2] id Mech.cda
      (List.Perm.refl _)⟩
